import Mathlib

/-!
# Verification of the circdown firmware catalog client

A shallow embedding, in Lean 4, of the core of `circdown.py`: the
filename/URL parser (`ImageInfo.from_url`), the version classifier
(`is_release`, `is_full_release`), the catalog query layer
(`list_boards`, `list_languages`, `list_versions`) and the selection
engine of `main`'s `get` command (three stable descending sorts followed
by a filter and a first-element pick).

Strings are modelled as `List Char` (`Str`).  Python's regular
expressions are replaced by equivalent deterministic recursive
functions; every equivalence argument is recorded in the doc comment of
the corresponding definition.  Network access is out of scope: functions
that consume a bucket listing take the listing's payload (keys, common
prefixes, sizes, timestamps) as an argument.
-/

set_option maxHeartbeats 1000000
set_option linter.unnecessarySeqFocus false

namespace Circdown

open scoped List

/-- Strings, modelled as lists of characters (Python compares strings
lexicographically by code point; `Char` comparison in Lean is by code
point as well). -/
abbrev Str := List Char

/-! ## String primitives -/

/-- Prefix test: `strHasPrefix needle hay` holds when `hay` starts with `needle`.  Used to model
Python's `in` (substring test) and `str.endswith`. -/
def strHasPrefix : Str → Str → Bool
  | [], _ => true
  | _ :: _, [] => false
  | a :: s, b :: t => decide (a = b) && strHasPrefix s t

/-- Substring test, Python's `needle in hay`. -/
def strContains (hay needle : Str) : Bool :=
  match hay with
  | [] => decide (needle = [])
  | _ :: t => strHasPrefix needle hay || strContains t needle

/-- Suffix test, Python's `s.endswith(suffix)`. -/
def strEndsWith (s ending : Str) : Bool :=
  strHasPrefix ending.reverse s.reverse

/-- Strict lexicographic comparison of strings by code point, exactly
Python's `<` on `str`: element-wise comparison, a proper prefix is
smaller. -/
def strLt : Str → Str → Bool
  | [], [] => false
  | [], _ :: _ => true
  | _ :: _, [] => false
  | a :: s, b :: t => decide (a < b) || (decide (a = b) && strLt s t)

/-- Non-strict lexicographic comparison of strings (Python's `<=`). -/
def strLe (s t : Str) : Bool := !(strLt t s)

/-- Split at the first occurrence of `c`: `some (before, after)`, or
`none` when `c` does not occur.  One step of Python's
`split(c, maxsplit)`. -/
def splitFirst (c : Char) : Str → Option (Str × Str)
  | [] => none
  | x :: rest =>
    if x = c then some ([], rest)
    else
      match splitFirst c rest with
      | some (pre, post) => some (x :: pre, post)
      | none => none

/-- Python's `s.split(c)` (no maxsplit): always a non-empty list of
fields. -/
def splitAll (c : Char) : Str → List Str
  | [] => [[]]
  | x :: rest =>
    match splitAll c rest with
    | [] => [[x]]
    | p :: ps => if x = c then [] :: p :: ps else (x :: p) :: ps

/-- Model of `url.split('/')[-1]`, the basename of a URL path.  The source first
runs `urlparse` and takes `.path`; for the object keys and URLs handled
by this program (no query or fragment part) the final `/`-separated
segment of the whole string coincides with the final segment of the
parsed path, so the model splits the URL string directly. -/
def basename (url : Str) : Str := (splitAll '/' url).getLastD []

/-- Model of `key.split('/')[-2]`, the second-to-last `/`-separated segment, used
by `list_boards` and `list_languages` on common-prefix URLs (which end
in `/`, so this is the last directory name).  Total model: on lists with
fewer than two fields it returns `[]` where Python would raise. -/
def secondLastSeg (key : Str) : Str := ((splitAll '/' key).reverse).getD 1 []

/-! ## Version classifier (`ImageInfo.RELEASE_REGEX`, `FULL_RELEASE_REGEX`)

`RELEASE_REGEX = ^[0-9]+(?:\.[0-9]+)+` used with `.match` (prefix
match), `FULL_RELEASE_REGEX = ^[0-9]+(?:\.[0-9]+)*$` used with `.match`
(anchored at both ends).  Both regexes are deterministic in the sense
that backtracking cannot create a match that maximal munch misses: the
character classes `[0-9]` and `\.` are disjoint, so giving back digits
never lets a `\.` or an anchor succeed.  Hence the recursive functions
below, which consume maximal digit runs, are exact translations. -/

/-- After the leading digit run of a full-release candidate: accepts
`([0-9]*)(\.[0-9]+)*` up to the end of the string. -/
def fullTail : Str → Bool
  | [] => true
  | c :: rest =>
    if c = '.' then
      match rest with
      | [] => false
      | d :: rest2 => d.isDigit && fullTail rest2
    else c.isDigit && fullTail rest

/-- Classifier `ImageInfo.is_full_release`: the whole version string matches
`^[0-9]+(?:\.[0-9]+)*$` (truthiness of the match object). -/
def is_full_release (v : Str) : Bool :=
  match v with
  | [] => false
  | c :: rest => c.isDigit && fullTail rest

/-- After the leading digit run of a release candidate: accepts
`[0-9]*\.[0-9]` and then anything, which is exactly when
`^[0-9]+(?:\.[0-9]+)+` succeeds as a prefix match after at least one
digit was consumed. -/
def relAfterDigits : Str → Bool
  | [] => false
  | c :: rest =>
    if c.isDigit then relAfterDigits rest
    else
      decide (c = '.') &&
        (match rest with
         | [] => false
         | d :: _ => d.isDigit)

/-- Classifier `ImageInfo.is_release`: the version string starts with a match of
`^[0-9]+(?:\.[0-9]+)+` (truthiness of the prefix-match object). -/
def is_release (v : Str) : Bool :=
  match v with
  | [] => false
  | c :: rest => c.isDigit && relAfterDigits rest

/-- Classifier `ImageInfo.is_rc`: `'rc' in self.version`. -/
def is_rc (v : Str) : Bool := strContains v ['r', 'c']

/-- Classifier `ImageInfo.is_alpha`: `'alpha' in self.version`. -/
def is_alpha (v : Str) : Bool := strContains v ['a', 'l', 'p', 'h', 'a']

/-! ## Filename parser (`ImageInfo.FILETYPE_REGEX`, `ImageInfo.from_url`) -/

/-- Continuation of an extension run: `[0-9A-Za-z]*` followed by either
the end of the string or another `\.[A-Za-z][0-9A-Za-z]*` segment. -/
def afterSeg : Str → Bool
  | [] => true
  | c :: rest =>
    if c = '.' then
      match rest with
      | [] => false
      | d :: rest2 => d.isAlpha && afterSeg rest2
    else c.isAlphanum && afterSeg rest

/-- A full match of `(?:\.[A-Za-z][0-9A-Za-z]*)+`: one or more
dot-prefixed extension segments, each starting with a letter — the
string starts with a dot and continues as a run. -/
def isExtRun (s : Str) : Bool :=
  match s with
  | c :: _ => decide (c = '.') && afterSeg s
  | [] => false

/-- Model of `FILETYPE_REGEX = ^(.*?)((?:\.[A-Za-z][0-9A-Za-z]*)+)$` applied with
`.match`: the non-greedy stem means the shortest stem — equivalently the
longest extension-run suffix — wins.  The function tries stems of
increasing length, exactly as the regex engine does, and returns
`some (stem, type)` or `none` when the regex fails. -/
def filetypeSplit : Str → Option (Str × Str)
  | [] => none
  | c :: rest =>
    if isExtRun (c :: rest) then some ([], c :: rest)
    else
      match filetypeSplit rest with
      | some (stem, ty) => some (c :: stem, ty)
      | none => none

/-- A timestamp with time zone, as produced by `parse_contents` from the
listing's `LastModified` field.  The selection engine only ever uses the
`date` projection (`mdate.date()`), so the model keeps the calendar date
(totally ordered, encoded as `Nat`) separate from the remaining
time-of-day information. -/
structure Timestamp where
  date : Nat
  timeOfDay : Nat
deriving DecidableEq, Repr

/-- Record type `ImageInfo`: one record of the firmware catalog, fields in the order
of `__slots__`.  `size` and `mdate` default to `None` in the source and
are filled from the listing by `parse_contents` before any record
reaches the selection engine; the claims under verification never
exercise the `None` defaults, so the model passes both through as
required values. -/
structure ImageInfo where
  name : Str
  url : Str
  size : Nat
  mdate : Timestamp
  board : Str
  language : Str
  version : Str
  type : Str
deriving DecidableEq, Repr

/-- Parser `ImageInfo.from_url` (lines 55-65): take the basename of the URL
path, split off the filetype suffix with `FILETYPE_REGEX`, then
destructure `name.split('-', 4)` into five fields, of which the last
three are board, language and version.  A failure of either the regex
(`AttributeError` on `.groups()`) or the five-way unpacking
(`ValueError`) is the fatal parse error the specification calls
`MalformedNameError`; it is modelled as `none`. -/
def from_url (url : Str) (size : Nat) (mdate : Timestamp) : Option ImageInfo :=
  let filename := basename url
  match filetypeSplit filename with
  | none => none
  | some (stem, ty) =>
    match splitFirst '-' stem with
    | none => none
    | some (_, r1) =>
      match splitFirst '-' r1 with
      | none => none
      | some (_, r2) =>
        match splitFirst '-' r2 with
        | none => none
        | some (b, r3) =>
          match splitFirst '-' r3 with
          | none => none
          | some (l, v) =>
            some { name := filename, url := url, size := size, mdate := mdate,
                   board := b, language := l, version := v, type := ty }

/-! ## Catalog query layer (`FirmwareDownloader`)

The navigator issues one listing request and parses the XML response;
that network step is out of scope, so each query function takes the
payload of the response (the list of common-prefix URLs relative to the
bucket, or the parsed image records) as an argument. -/

/-- Default bucket URL of `FirmwareDownloader.__init__`. -/
def defaultBucketUrl : Str :=
  "https://adafruit-circuit-python.s3.amazonaws.com".toList

/-- Model of `requests.compat.urljoin(bucket_url, key)` for the shapes this
program produces: the base is a bare scheme-and-host URL with no path,
the key is relative, so joining inserts a single `/`. -/
def urljoin (base rel : Str) : Str := base ++ '/' :: rel

/-- Shared filter condition `search is None or search in key`. -/
def searchMatches (search : Option Str) (hay : Str) : Bool :=
  match search with
  | none => true
  | some s => strContains hay s

/-- Query `FirmwareDownloader.list_boards` (lines 97-102): for every
common prefix of the `bin/` listing, join it to the bucket URL, apply
the optional substring search to that full URL, and yield the
second-to-last path segment. -/
def list_boards (bucket : Str) (prefixes : List Str) (search : Option Str) :
    List Str :=
  match prefixes with
  | [] => []
  | p :: rest =>
    let key := urljoin bucket p
    if searchMatches search key then
      secondLastSeg key :: list_boards bucket rest search
    else list_boards bucket rest search

/-- Query `FirmwareDownloader.list_languages` (lines 104-109): identical
to `list_boards` except that the request is issued one level deeper
(under `bin/<board>/`); the board name only shapes the request path, so
in the model it is carried but not consulted. -/
def list_languages (bucket : Str) (board : Str) (prefixes : List Str)
    (search : Option Str) : List Str :=
  match prefixes with
  | [] => []
  | p :: rest =>
    let key := urljoin bucket p
    if searchMatches search key then
      secondLastSeg key :: list_languages bucket board rest search
    else list_languages bucket board rest search

/-- Query `FirmwareDownloader.list_versions` (lines 111-115): for each
image of `list_images(board, language)` — supplied here as the `images`
argument — yield its version string when the optional search is a
substring of the version and the record `is_release`. -/
def list_versions (images : List ImageInfo) (search : Option Str) : List Str :=
  match images with
  | [] => []
  | image :: rest =>
    if searchMatches search image.version then
      if is_release image.version then
        image.version :: list_versions rest search
      else list_versions rest search
    else list_versions rest search

/-! ## Selection engine (`main`, `get` command, lines 202-231)

Python's `sorted` is a stable sort; with `reverse=True` it orders keys
descending while equal-key elements keep their input order (the reverse
flag inverts comparisons, it does not reverse the output).  The model
uses `List.mergeSort le` with `le a b` meaning "the key of `a` is at
least the key of `b`", which is precisely that stable descending sort:
`merge` takes from the left run when `le` holds, so equal keys preserve
input order. -/

/-- Comparator of the first pass (line 207),
`key=lambda r: (r.mdate.date(), r.version), reverse=True`: descending
lexicographic on the pair (date, version). -/
def le1 (r s : ImageInfo) : Bool :=
  decide (s.mdate.date < r.mdate.date) ||
    (decide (s.mdate.date = r.mdate.date) && strLe s.version r.version)

/-- Comparator of the second pass (line 209), `key=lambda r: r.type,
reverse=True`: descending by type string. -/
def le2 (r s : ImageInfo) : Bool := strLe s.type r.type

/-- Comparator of the third pass (line 210),
`key=lambda r: r.mdate.date(), reverse=True`: descending by date. -/
def le3 (r s : ImageInfo) : Bool := decide (s.mdate.date ≤ r.mdate.date)

/-- Lines 207-210: the three successive stable descending sorts applied
to `cp.list_images(...)`. -/
def sortImages (images : List ImageInfo) : List ImageInfo :=
  ((images.mergeSort le1).mergeSort le2).mergeSort le3

/-- Selection criteria consumed from the CLI layer (`--type`,
`--version`, `--prerelease`, `--latest`). -/
structure GetOptions where
  type : Option Str
  version : Option Str
  prerelease : Bool
  latest : Bool
deriving DecidableEq, Repr

/-- Lines 204-205: a truthy type filter that does not start with `.` gets
a dot prepended (an empty-string filter is falsy and passes through). -/
def normalizeType : Option Str → Option Str
  | none => none
  | some [] => some []
  | some (c :: rest) =>
    if c = '.' then some (c :: rest) else some ('.' :: c :: rest)

/-- Filter condition of the list comprehension (lines 212-217): the three
`if` clauses are conjoined. -/
def keepImage (o : GetOptions) (img : ImageInfo) : Bool :=
  (match o.type with
   | none => true
   | some t => strEndsWith img.type t) &&
  (match o.version with
   | none => true
   | some v => decide (img.version = v)) &&
  (o.prerelease || is_full_release img.version ||
    o.latest || is_release img.version)

/-- The `filtered` list of line 212. -/
def filteredImages (o : GetOptions) (results : List ImageInfo) :
    List ImageInfo :=
  results.filter (keepImage o)

/-- Lines 219-231: `filtered[0]` when the filtered list is non-empty,
otherwise the "no images found" report; `none` is the no-match state. -/
def selectImage (o : GetOptions) (results : List ImageInfo) :
    Option ImageInfo :=
  (filteredImages o results).head?

/-- The whole `get` pipeline on a fetched image list: normalize the type
filter, sort in three stable passes, filter, take the first. -/
def getSelected (o : GetOptions) (images : List ImageInfo) :
    Option ImageInfo :=
  selectImage { o with type := normalizeType o.type } (sortImages images)

/-- Comparator described by the claim: a single descending lexicographic
sort by the triple (modifiedAt.date, type, version). -/
def tripleLe (r s : ImageInfo) : Bool :=
  decide (s.mdate.date < r.mdate.date) ||
    (decide (s.mdate.date = r.mdate.date) &&
      (strLt s.type r.type ||
        (decide (s.type = r.type) && strLe s.version r.version)))

/-- Keep-condition as worded by the specification's selection step 4: the
type filter is absent or the record's type ends with the requested
suffix; the version filter is absent or the record's version equals it
exactly; and the record passes the release gate. -/
def specKeep (o : GetOptions) (img : ImageInfo) : Prop :=
  (∀ t, o.type = some t → strEndsWith img.type t = true) ∧
  (∀ v, o.version = some v → img.version = v) ∧
  (o.prerelease = true ∨ is_full_release img.version = true ∨
    o.latest = true ∨ is_release img.version = true)

/-- Failure condition of the parser, for the amended parse-error claim:
the basename has no valid filetype suffix, or the remaining stem splits
into fewer than five dash-separated fields. -/
def malformedName (filename : Str) : Bool :=
  match filetypeSplit filename with
  | none => true
  | some (stem, _) => decide ((splitAll '-' stem).length < 5)

/-- Criteria with the prerelease and latest flags exchanged. -/
def swapFlags (o : GetOptions) : GetOptions :=
  { o with prerelease := o.latest, latest := o.prerelease }

/-- Comparator realized by a stable re-sort: the new key `le2` is
primary, and `le2`-ties fall back to the previous ordering `le1`. -/
def lexComb {γ : Type} (le2 le1 : γ → γ → Bool) (a b : γ) : Bool :=
  le2 a b && (!le2 b a || le1 a b)

/-- Sample timestamp for concrete witnesses. -/
def sampleTs : Timestamp := ⟨0, 0⟩

/-- Sample record whose version `x1` is neither a release nor a full
release, used by concrete witnesses. -/
def sampleImage : ImageInfo :=
  { name := "n".toList, url := "u".toList, size := 0, mdate := sampleTs,
    board := "b".toList, language := "l".toList,
    version := "x1".toList, type := ".uf2".toList }

/-- Sample criteria with only the prerelease flag set, used by concrete
witnesses. -/
def sampleOpts : GetOptions :=
  { type := none, version := none, prerelease := true, latest := false }

/-- Criteria with no filters and both flags clear, used by concrete
witnesses. -/
def emptyOpts : GetOptions :=
  { type := none, version := none, prerelease := false, latest := false }

/-! ## Order properties of the string comparators -/

theorem strLt_irrefl : ∀ s : Str, strLt s s = false
  | [] => rfl
  | a :: s => by simp [strLt, strLt_irrefl s]

theorem strLt_asymm : ∀ s t : Str, strLt s t = true → strLt t s = false
  | [], [] => by simp [strLt]
  | [], _ :: _ => by simp [strLt]
  | _ :: _, [] => by simp [strLt]
  | a :: s, b :: t => by
    simp only [strLt, Bool.or_eq_true, Bool.and_eq_true, decide_eq_true_eq]
    rintro (hab | ⟨rfl, hst⟩)
    · have h1 : ¬ b < a := not_lt.mpr hab.le
      have h2 : b ≠ a := ne_of_gt hab
      simp [h1, h2]
    · simp [lt_irrefl, strLt_asymm s t hst]

theorem strLt_connex : ∀ s t : Str, s ≠ t → strLt s t = true ∨ strLt t s = true
  | [], [] => by simp
  | [], _ :: _ => by simp [strLt]
  | _ :: _, [] => by simp [strLt]
  | a :: s, b :: t => by
    intro hne
    rcases lt_trichotomy a b with h | h | h
    · left; simp [strLt, h]
    · subst h
      have hst : s ≠ t := fun h => hne (by rw [h])
      rcases strLt_connex s t hst with h | h
      · left; simp [strLt, h]
      · right; simp [strLt, h]
    · right; simp [strLt, h]

theorem strLt_trans :
    ∀ s t u : Str, strLt s t = true → strLt t u = true → strLt s u = true
  | [], [], _ => by simp [strLt]
  | [], _ :: _, [] => by simp [strLt]
  | [], _ :: _, _ :: _ => by simp [strLt]
  | _ :: _, [], _ => by simp [strLt]
  | _ :: _, _ :: _, [] => by simp [strLt]
  | a :: s, b :: t, c :: u => by
    simp only [strLt, Bool.or_eq_true, Bool.and_eq_true, decide_eq_true_eq]
    rintro (hab | ⟨rfl, hst⟩) (hbc | ⟨rfl, htu⟩)
    · exact Or.inl (lt_trans hab hbc)
    · exact Or.inl hab
    · exact Or.inl hbc
    · exact Or.inr ⟨rfl, strLt_trans s t u hst htu⟩

theorem strLe_total : ∀ s t : Str, strLe s t = true ∨ strLe t s = true := by
  intro s t
  by_cases h : strLt t s = true
  · right
    simp [strLe, strLt_asymm t s h]
  · left
    simp only [strLe, Bool.not_eq_true]
    simp [Bool.not_eq_true] at h
    simp [h]

theorem strLe_trans {s t u : Str} (h1 : strLe s t = true) (h2 : strLe t u = true) :
    strLe s u = true := by
  simp only [strLe, Bool.not_eq_true', Bool.not_eq_true] at h1 h2 ⊢
  by_contra hus
  rw [Bool.not_eq_false] at hus
  by_cases hut : u = t
  · subst hut
    exact absurd hus (by simp [h1])
  · rcases strLt_connex u t hut with h | h
    · exact absurd h (by simp [h2])
    · exact absurd (strLt_trans t u s h hus) (by simp [h1])

theorem strLe_of_strLt {s t : Str} (h : strLt s t = true) : strLe s t = true := by
  simp [strLe, strLt_asymm s t h]

theorem strLe_refl (s : Str) : strLe s s = true := by
  simp [strLe, strLt_irrefl s]

theorem strLe_antisymm {s t : Str} (h1 : strLe s t = true) (h2 : strLe t s = true) :
    s = t := by
  simp only [strLe, Bool.not_eq_true'] at h1 h2
  by_contra hne
  rcases strLt_connex s t hne with h | h
  · exact absurd h (by simp [h2])
  · exact absurd h (by simp [h1])

/-! ## Stable sorts compose lexicographically

The fact needed for the sorting claim: running a second stable sort on
an already stably-sorted list is the same as one stable sort by the
lexicographic combination of the two comparators.  The proof tags every
element with its index (`List.enum`), where the comparator extended by
index comparison (`List.enumLE`) is antisymmetric, so the sorted result
is unique among permutations. -/

section SortComposition

variable {γ : Type}

theorem pair_sublist_of_mem {p q : γ} {L : List γ} (hne : p ≠ q)
    (hp : p ∈ L) (hq : q ∈ L) : [p, q] <+ L ∨ [q, p] <+ L := by
  induction L with
  | nil => cases hp
  | cons x T ih =>
    rcases List.mem_cons.mp hp with rfl | hpT
    · have hqT : q ∈ T := by
        rcases List.mem_cons.mp hq with h | h
        · exact absurd h.symm hne
        · exact h
      exact Or.inl (List.Sublist.cons₂ p (List.singleton_sublist.mpr hqT))
    · rcases List.mem_cons.mp hq with rfl | hqT
      · exact Or.inr (List.Sublist.cons₂ q (List.singleton_sublist.mpr hpT))
      · rcases ih hpT hqT with h | h
        · exact Or.inl (h.cons x)
        · exact Or.inr (h.cons x)

theorem eq_of_pair_sublists {p q : γ} :
    ∀ {L : List γ}, L.Nodup → [p, q] <+ L → [q, p] <+ L → p = q := by
  intro L
  induction L with
  | nil => intro _ h; cases h
  | cons x T ih =>
    intro hnd h1 h2
    have hxT : x ∉ T := (List.nodup_cons.mp hnd).1
    have hndT : T.Nodup := (List.nodup_cons.mp hnd).2
    cases h1 with
    | cons _ h1 =>
      cases h2 with
      | cons _ h2 => exact ih hndT h1 h2
      | cons₂ _ h2 =>
        exact absurd (h1.subset (by simp)) hxT
    | cons₂ _ h1 =>
      cases h2 with
      | cons _ h2 =>
        exact absurd (h2.subset (by simp)) hxT
      | cons₂ _ h2 => rfl

theorem eq_of_perm_of_pairwise {R : γ → γ → Prop} :
    ∀ {L1 L2 : List γ}, L1 ~ L2 → L1.Pairwise R → L2.Pairwise R →
      (∀ p ∈ L1, ∀ q ∈ L1, R p q → R q p → p = q) → L1 = L2 := by
  intro L1
  induction L1 with
  | nil =>
    intro L2 hperm _ _ _
    exact (List.Perm.eq_nil hperm.symm).symm
  | cons a T1 ih =>
    intro L2 hperm h1 h2 hanti
    have haL2 : a ∈ L2 := hperm.mem_iff.mp (List.mem_cons_self a T1)
    cases L2 with
    | nil => cases haL2
    | cons b T2 =>
      by_cases hab : a = b
      · subst hab
        have : T1 = T2 :=
          ih hperm.cons_inv (List.Pairwise.of_cons h1) (List.Pairwise.of_cons h2)
            (fun p hp q hq => hanti p (List.mem_cons_of_mem a hp)
              q (List.mem_cons_of_mem a hq))
        rw [this]
      · have hbT1 : b ∈ T1 := by
          rcases List.mem_cons.mp (hperm.mem_iff.mpr (List.mem_cons_self b T2)) with
            h | h
          · exact absurd h.symm hab
          · exact h
        have haT2 : a ∈ T2 := by
          rcases List.mem_cons.mp haL2 with h | h
          · exact absurd h hab
          · exact h
        have hRab : R a b := List.rel_of_pairwise_cons h1 hbT1
        have hRba : R b a := List.rel_of_pairwise_cons h2 haT2
        exact absurd
          (hanti a (List.mem_cons_self a T1) b (List.mem_cons_of_mem a hbT1)
            hRab hRba) hab

theorem lexComb_trans {le1 le2 : γ → γ → Bool}
    (t2 : ∀ a b c, le2 a b → le2 b c → le2 a c)
    (t1 : ∀ a b c, le1 a b → le1 b c → le1 a c) :
    ∀ a b c, lexComb le2 le1 a b → lexComb le2 le1 b c → lexComb le2 le1 a c := by
  intro a b c hab hbc
  simp only [lexComb, Bool.and_eq_true, Bool.or_eq_true, Bool.not_eq_true'] at hab hbc ⊢
  obtain ⟨hab2, hab1⟩ := hab
  obtain ⟨hbc2, hbc1⟩ := hbc
  refine ⟨t2 _ _ _ hab2 hbc2, ?_⟩
  cases hca : le2 c a with
  | false => exact Or.inl rfl
  | true =>
    right
    have hcb : le2 c b := t2 _ _ _ hca hab2
    have hba : le2 b a := t2 _ _ _ hbc2 hca
    have h1ab : le1 a b := by
      rcases hab1 with h | h
      · rw [hba] at h; cases h
      · exact h
    have h1bc : le1 b c := by
      rcases hbc1 with h | h
      · rw [hcb] at h; cases h
      · exact h
    exact t1 _ _ _ h1ab h1bc

theorem lexComb_total {le1 le2 : γ → γ → Bool}
    (to2 : ∀ a b, le2 a b || le2 b a)
    (to1 : ∀ a b, le1 a b || le1 b a) :
    ∀ a b, lexComb le2 le1 a b || lexComb le2 le1 b a := by
  intro a b
  simp only [lexComb, Bool.or_eq_true, Bool.and_eq_true, Bool.not_eq_true']
  cases hab : le2 a b with
  | false =>
    have hba : le2 b a := by
      have := to2 a b
      rw [hab] at this
      simpa using this
    exact Or.inr ⟨hba, Or.inl rfl⟩
  | true =>
    cases hba : le2 b a with
    | false => exact Or.inl ⟨rfl, Or.inl rfl⟩
    | true =>
      have := to1 a b
      rcases Bool.or_eq_true_iff.mp this with h | h
      · exact Or.inl ⟨rfl, Or.inr h⟩
      · exact Or.inr ⟨rfl, Or.inr h⟩

theorem enumLE_lexComb_antisymm {le : γ → γ → Bool} {l : List γ}
    {p q : Nat × γ} (hp : p ∈ l.enum) (hq : q ∈ l.enum)
    (hpq : List.enumLE le p q) (hqp : List.enumLE le q p) : p = q := by
  obtain ⟨i, x⟩ := p
  obtain ⟨j, y⟩ := q
  have hidx : i = j := by
    simp only [List.enumLE] at hpq hqp
    cases hA : le x y <;> cases hB : le y x <;>
      simp [hA, hB] at hpq hqp <;> omega
  subst hidx
  have hx : l[i]? = some x := List.mk_mem_enum_iff_getElem?.mp hp
  have hy : l[i]? = some y := List.mk_mem_enum_iff_getElem?.mp hq
  rw [hx] at hy
  exact congrArg (Prod.mk i) (Option.some.inj hy)

theorem mergeSort_mergeSort_eq {le1 le2 : γ → γ → Bool}
    (t1 : ∀ a b c, le1 a b → le1 b c → le1 a c)
    (to1 : ∀ a b, le1 a b || le1 b a)
    (t2 : ∀ a b c, le2 a b → le2 b c → le2 a c)
    (to2 : ∀ a b, le2 a b || le2 b a)
    (l : List γ) :
    (l.mergeSort le1).mergeSort le2 = l.mergeSort (lexComb le2 le1) := by
  have tc := lexComb_trans t2 t1
  have toc := lexComb_total to2 to1
  have rtrans : ∀ a b c : Nat × γ, le2 a.2 b.2 → le2 b.2 c.2 → le2 a.2 c.2 :=
    fun a b c hab hbc => t2 _ _ _ hab hbc
  have rtotal : ∀ a b : Nat × γ, le2 a.2 b.2 || le2 b.2 a.2 :=
    fun a b => to2 _ _
  have hndE : (l.enum).Nodup := List.Nodup.of_map _ (List.nodup_enum_map_fst l)
  have hndM1 : ((l.enum).mergeSort (List.enumLE le1)).Nodup :=
    (List.mergeSort_perm (l.enum) (List.enumLE le1)).symm.nodup hndE
  have hndM2 :
      (((l.enum).mergeSort (List.enumLE le1)).mergeSort
        (fun p q => le2 p.2 q.2)).Nodup :=
    (List.mergeSort_perm _ _).symm.nodup hndM1
  have hsM1 :
      ((l.enum).mergeSort (List.enumLE le1)).Pairwise
        (fun p q => List.enumLE le1 p q) :=
    List.sorted_mergeSort (List.enumLE_trans t1) (List.enumLE_total to1) (l.enum)
  have hsM2r :
      ((((l.enum).mergeSort (List.enumLE le1)).mergeSort
        (fun p q => le2 p.2 q.2))).Pairwise (fun p q => le2 p.2 q.2) :=
    List.sorted_mergeSort rtrans rtotal _
  have hkey :
      (((l.enum).mergeSort (List.enumLE le1)).mergeSort
        (fun p q => le2 p.2 q.2)) =
      (l.enum).mergeSort (List.enumLE (lexComb le2 le1)) := by
    have hperm :
        (((l.enum).mergeSort (List.enumLE le1)).mergeSort
          (fun p q => le2 p.2 q.2)) ~
        (l.enum).mergeSort (List.enumLE (lexComb le2 le1)) :=
      ((List.mergeSort_perm _ _).trans (List.mergeSort_perm _ _)).trans
        (List.mergeSort_perm _ _).symm
    have hsM2 :
        ((((l.enum).mergeSort (List.enumLE le1)).mergeSort
          (fun p q => le2 p.2 q.2))).Pairwise
          (fun p q => List.enumLE (lexComb le2 le1) p q) := by
      rw [List.pairwise_iff_forall_sublist]
      intro a b hab
      have hrab : le2 a.2 b.2 :=
        List.pairwise_iff_forall_sublist.mp hsM2r hab
      have hne : a ≠ b := List.pairwise_iff_forall_sublist.mp hndM2 hab
      by_cases hrba : le2 b.2 a.2 = true
      · have h1ab : List.enumLE le1 a b := by
          by_contra hcon
          have haM1 : a ∈ (l.enum).mergeSort (List.enumLE le1) :=
            List.mem_mergeSort.mp (hab.subset (by simp))
          have hbM1 : b ∈ (l.enum).mergeSort (List.enumLE le1) :=
            List.mem_mergeSort.mp (hab.subset (by simp))
          have hnotab : ¬ ([a, b] <+ (l.enum).mergeSort (List.enumLE le1)) :=
            fun hs => hcon (List.pairwise_iff_forall_sublist.mp hsM1 hs)
          have hba : [b, a] <+ (l.enum).mergeSort (List.enumLE le1) :=
            (pair_sublist_of_mem hne haM1 hbM1).resolve_left hnotab
          have hba2 :
              [b, a] <+ (((l.enum).mergeSort (List.enumLE le1)).mergeSort
                (fun p q => le2 p.2 q.2)) :=
            List.pair_sublist_mergeSort rtrans rtotal hrba hba
          exact hne (eq_of_pair_sublists hndM2 hab hba2)
        simp only [List.enumLE, lexComb, hrab, hrba, Bool.not_true,
          Bool.false_or, Bool.true_and, if_true] at h1ab ⊢
        exact h1ab
      · simp only [Bool.not_eq_true] at hrba
        simp [List.enumLE, lexComb, hrab, hrba]
    have hsN :
        ((l.enum).mergeSort (List.enumLE (lexComb le2 le1))).Pairwise
          (fun p q => List.enumLE (lexComb le2 le1) p q) :=
      List.sorted_mergeSort (List.enumLE_trans tc) (List.enumLE_total toc) (l.enum)
    refine eq_of_perm_of_pairwise hperm hsM2 hsN ?_
    intro p hp q hq hpq hqp
    have hpE : p ∈ l.enum :=
      List.mem_mergeSort.mp (List.mem_mergeSort.mp hp)
    have hqE : q ∈ l.enum :=
      List.mem_mergeSort.mp (List.mem_mergeSort.mp hq)
    exact enumLE_lexComb_antisymm hpE hqE hpq hqp
  calc (l.mergeSort le1).mergeSort le2
      = (((l.enum).mergeSort (List.enumLE le1)).map (fun p => p.2)).mergeSort
          le2 := by
        rw [List.mergeSort_enum]
    _ = (((l.enum).mergeSort (List.enumLE le1)).mergeSort
          (fun p q => le2 p.2 q.2)).map (fun p => p.2) :=
        (List.map_mergeSort (s := le2) (f := fun p : Nat × γ => p.2)
          (fun a _ b _ => rfl)).symm
    _ = ((l.enum).mergeSort (List.enumLE (lexComb le2 le1))).map
          (fun p => p.2) := by rw [hkey]
    _ = l.mergeSort (lexComb le2 le1) := List.mergeSort_enum

end SortComposition

/-! ## Properties of the selection comparators -/

theorem le2_trans : ∀ a b c : ImageInfo, le2 a b → le2 b c → le2 a c :=
  fun _ _ _ hab hbc => strLe_trans hbc hab

theorem le2_total : ∀ a b : ImageInfo, le2 a b || le2 b a := by
  intro a b
  rcases strLe_total b.type a.type with h | h <;> simp [le2, h]

theorem le3_trans : ∀ a b c : ImageInfo, le3 a b → le3 b c → le3 a c := by
  intro a b c hab hbc
  simp only [le3, decide_eq_true_eq] at hab hbc ⊢
  omega

theorem le3_total : ∀ a b : ImageInfo, le3 a b || le3 b a := by
  intro a b
  simp only [le3, Bool.or_eq_true, decide_eq_true_eq]
  omega

theorem le1_trans : ∀ a b c : ImageInfo, le1 a b → le1 b c → le1 a c := by
  intro a b c hab hbc
  simp only [le1, Bool.or_eq_true, Bool.and_eq_true, decide_eq_true_eq]
    at hab hbc ⊢
  rcases hab with h | ⟨he, hv⟩ <;> rcases hbc with h2 | ⟨he2, hv2⟩
  · exact Or.inl (lt_trans h2 h)
  · exact Or.inl (by omega)
  · exact Or.inl (by omega)
  · exact Or.inr ⟨by omega, strLe_trans hv2 hv⟩

theorem le1_total : ∀ a b : ImageInfo, le1 a b || le1 b a := by
  intro a b
  simp only [le1, Bool.or_eq_true, Bool.and_eq_true, decide_eq_true_eq]
  rcases lt_trichotomy a.mdate.date b.mdate.date with h | h | h
  · exact Or.inr (Or.inl h)
  · rcases strLe_total a.version b.version with hv | hv
    · exact Or.inr (Or.inr ⟨h, hv⟩)
    · exact Or.inl (Or.inr ⟨h.symm, hv⟩)
  · exact Or.inl (Or.inl h)

theorem strLe_and_orLt (s t : Str) (x : Bool) :
    (strLe s t && (strLt s t || x)) = (strLt s t || (decide (s = t) && x)) := by
  by_cases h : strLt s t = true
  · simp [h, strLe_of_strLt h]
  · simp only [Bool.not_eq_true] at h
    by_cases he : s = t
    · subst he
      simp [strLe_refl, strLt_irrefl]
    · have h2 : strLt t s = true :=
        (strLt_connex s t he).resolve_left (by simp [h])
      have h3 : strLe s t = false := by simp [strLe, h2]
      simp [h, h3, he]

theorem lexComb_eq_tripleLe : lexComb le3 (lexComb le2 le1) = tripleLe := by
  have hnot : ∀ s t : Str, (!strLe s t) = strLt t s := by
    intro s t; simp [strLe]
  funext a b
  rcases lt_trichotomy a.mdate.date b.mdate.date with hd | hd | hd
  · have h1 : decide (b.mdate.date ≤ a.mdate.date) = false := by
      simp only [decide_eq_false_iff_not]; omega
    have h2 : decide (b.mdate.date < a.mdate.date) = false := by
      simp only [decide_eq_false_iff_not]; omega
    have h3 : decide (b.mdate.date = a.mdate.date) = false := by
      simp only [decide_eq_false_iff_not]; omega
    simp [lexComb, le3, tripleLe, h1, h2, h3]
  · have h1 : decide (b.mdate.date ≤ a.mdate.date) = true := by
      simp only [decide_eq_true_eq]; omega
    have h1s : decide (a.mdate.date ≤ b.mdate.date) = true := by
      simp only [decide_eq_true_eq]; omega
    have h2 : decide (b.mdate.date < a.mdate.date) = false := by
      simp only [decide_eq_false_iff_not]; omega
    have h3 : decide (b.mdate.date = a.mdate.date) = true := by
      simp only [decide_eq_true_eq]; omega
    simp only [lexComb, le3, le2, le1, tripleLe, h1, h1s, h2, h3, hnot,
      Bool.not_true, Bool.false_or, Bool.true_and]
    exact strLe_and_orLt b.type a.type (strLe b.version a.version)
  · have h1 : decide (b.mdate.date ≤ a.mdate.date) = true := by
      simp only [decide_eq_true_eq]; omega
    have h1s : decide (a.mdate.date ≤ b.mdate.date) = false := by
      simp only [decide_eq_false_iff_not]; omega
    have h2 : decide (b.mdate.date < a.mdate.date) = true := by
      simp only [decide_eq_true_eq]; omega
    simp [lexComb, le3, tripleLe, h1, h1s, h2]

/-! ## Substring facts used by the catalog claims -/

theorem strHasPrefix_append :
    ∀ n h x : Str, strHasPrefix n h = true → strHasPrefix n (h ++ x) = true
  | [], _, _ => by simp [strHasPrefix]
  | _ :: _, [], _ => by simp [strHasPrefix]
  | a :: n, b :: h, x => by
    simp only [strHasPrefix, List.cons_append, Bool.and_eq_true,
      decide_eq_true_eq]
    rintro ⟨rfl, hp⟩
    exact ⟨rfl, strHasPrefix_append n h x hp⟩

theorem strContains_nil_needle : ∀ hay : Str, strContains hay [] = true
  | [] => by simp [strContains]
  | _ :: t => by simp [strContains, strHasPrefix]

theorem strContains_append (hay x s : Str) (h : strContains hay s = true) :
    strContains (hay ++ x) s = true := by
  induction hay with
  | nil =>
    simp only [strContains, decide_eq_true_eq] at h
    subst h
    exact strContains_nil_needle x
  | cons c t ih =>
    simp only [strContains, Bool.or_eq_true] at h
    rcases h with h | h
    · rw [List.cons_append, strContains]
      have h2 := strHasPrefix_append s (c :: t) x h
      rw [List.cons_append] at h2
      simp [h2]
    · rw [List.cons_append, strContains]
      simp [ih h]

theorem list_boards_search_in_bucket (bucket : Str) (prefixes : List Str)
    (search : Str) (h : strContains bucket search = true) :
    list_boards bucket prefixes (some search) =
      list_boards bucket prefixes none := by
  induction prefixes with
  | nil => rfl
  | cons p rest ih =>
    have hk : strContains (bucket ++ '/' :: p) search = true :=
      strContains_append bucket ('/' :: p) search h
    rw [list_boards, list_boards]
    simp [searchMatches, urljoin, hk, ih]

theorem list_languages_search_in_bucket (bucket board : Str)
    (prefixes : List Str) (search : Str)
    (h : strContains bucket search = true) :
    list_languages bucket board prefixes (some search) =
      list_languages bucket board prefixes none := by
  induction prefixes with
  | nil => rfl
  | cons p rest ih =>
    have hk : strContains (bucket ++ '/' :: p) search = true :=
      strContains_append bucket ('/' :: p) search h
    rw [list_languages, list_languages]
    simp [searchMatches, urljoin, hk, ih]

/-! ## Splitting lemmas for the parser claims -/

theorem splitFirst_append (c : Char) :
    ∀ pre post : Str, c ∉ pre →
      splitFirst c (pre ++ c :: post) = some (pre, post)
  | [], post => by simp [splitFirst]
  | x :: pre, post => by
    intro h
    have hx : ¬ x = c := fun he => h (he ▸ List.mem_cons_self x pre)
    have hrec := splitFirst_append c pre post
      (fun hm => h (List.mem_cons_of_mem x hm))
    rw [List.cons_append, splitFirst, if_neg hx, hrec]

theorem splitFirst_eq_none_iff (c : Char) :
    ∀ s : Str, splitFirst c s = none ↔ s.count c = 0
  | [] => by simp [splitFirst]
  | x :: s => by
    by_cases hx : x = c
    · subst hx
      simp [splitFirst, List.count_cons_self]
    · rw [splitFirst, if_neg hx, List.count_cons_of_ne (Ne.symm hx)]
      cases h : splitFirst c s with
      | none => simpa [h] using (splitFirst_eq_none_iff c s).mp h
      | some pq =>
        have : ¬ s.count c = 0 := fun h0 =>
          by rw [(splitFirst_eq_none_iff c s).mpr h0] at h; cases h
        simp [h, this]

theorem splitFirst_count (c : Char) :
    ∀ s p q : Str, splitFirst c s = some (p, q) →
      s.count c = q.count c + 1
  | [], p, q => by simp [splitFirst]
  | x :: s, p, q => by
    by_cases hx : x = c
    · subst hx
      rw [splitFirst, if_pos rfl]
      intro h
      obtain ⟨rfl, rfl⟩ := Prod.mk.injEq _ _ _ _ ▸ Option.some.inj h
      rw [List.count_cons_self]
    · rw [splitFirst, if_neg hx]
      cases h : splitFirst c s with
      | none => intro h2; cases h2
      | some pq =>
        obtain ⟨p2, q2⟩ := pq
        intro h2
        obtain ⟨rfl, rfl⟩ := Prod.mk.injEq _ _ _ _ ▸ Option.some.inj h2
        rw [List.count_cons_of_ne (Ne.symm hx)]
        exact splitFirst_count c s p2 q2 h

theorem splitAll_ne_nil (c : Char) : ∀ s : Str, splitAll c s ≠ []
  | [] => by simp [splitAll]
  | x :: s => by
    rw [splitAll]
    cases h : splitAll c s with
    | nil => exact absurd h (splitAll_ne_nil c s)
    | cons p ps => by_cases hx : x = c <;> simp [hx]

theorem splitAll_length (c : Char) :
    ∀ s : Str, (splitAll c s).length = s.count c + 1
  | [] => by simp [splitAll]
  | x :: s => by
    cases h : splitAll c s with
    | nil => exact absurd h (splitAll_ne_nil c s)
    | cons p ps =>
      have hx1 : splitAll c (x :: s) =
          if x = c then [] :: p :: ps else (x :: p) :: ps := by
        rw [splitAll, h]
      have hlen : ps.length + 1 = s.count c + 1 := by
        have h2 := splitAll_length c s
        rw [h] at h2
        simpa using h2
      by_cases hx : x = c
      · subst hx
        rw [hx1, if_pos rfl, List.count_cons_self]
        simp only [List.length_cons]
        omega
      · rw [hx1, if_neg hx, List.count_cons_of_ne (Ne.symm hx)]
        simp only [List.length_cons]
        omega

/-! ## Claims -/

/-- C1: the Selection Engine's three successive stable descending sorts
(first by the pair (modifiedAt.date, version), then by type alone, then
by modifiedAt.date alone) produce the same ordering of any image list as
a single descending lexicographic sort by the triple
(modifiedAt.date, type, version). -/
theorem c1_three_stable_sorts_eq_single_triple_sort
    (images : List ImageInfo) :
    sortImages images = images.mergeSort tripleLe := by
  unfold sortImages
  rw [mergeSort_mergeSort_eq le1_trans le1_total le2_trans le2_total]
  rw [mergeSort_mergeSort_eq (lexComb_trans le2_trans le1_trans)
    (lexComb_total le2_total le1_total) le3_trans le3_total]
  rw [lexComb_eq_tripleLe]

/-- C2: for every sorted image list and every criteria set, the
Selection Engine keeps a record iff (the type filter is absent or the
record's type ends with the requested suffix) and (the version filter is
absent or the record's version equals it exactly) and (prerelease is
set, or the record is a full release, or latest is set, or the record is
a release); the selected result is the first element of the filtered
sequence, or the no-match state (`none`) when the filtered sequence is
empty. -/
theorem c2_filter_and_first_characterization (o : GetOptions)
    (results : List ImageInfo) :
    (∀ img, keepImage o img = true ↔ specKeep o img) ∧
    (selectImage o results = none ↔ filteredImages o results = []) ∧
    (∀ x, selectImage o results = some x ↔
      ∃ t, filteredImages o results = x :: t) := by
  refine ⟨?_, ?_, ?_⟩
  · intro img
    cases ht : o.type <;> cases hv : o.version <;>
      simp [keepImage, specKeep, ht, hv, and_assoc, or_assoc]
  · rw [selectImage, List.head?_eq_none_iff]
  · intro x
    rw [selectImage]
    rcases h : filteredImages o results with _ | ⟨y, t⟩ <;> simp [h]

/-- C6: for every image list on which no record passes the
release/prerelease/latest gate, selection terminates in the empty-result
state (`none`, a normal reportable outcome, not an exception — the
pipeline is a total function into `Option`). -/
theorem c6_gate_failure_yields_empty_result (o : GetOptions)
    (images : List ImageInfo)
    (h : ∀ img ∈ images,
      (o.prerelease || is_full_release img.version ||
        o.latest || is_release img.version) = false) :
    getSelected o images = none := by
  rw [getSelected, selectImage, List.head?_eq_none_iff, filteredImages,
    List.filter_eq_nil_iff]
  intro a ha
  have hmem : a ∈ images := by
    rw [sortImages] at ha
    exact List.mem_mergeSort.mp (List.mem_mergeSort.mp (List.mem_mergeSort.mp ha))
  have hg := h a hmem
  simp [keepImage, hg]

/-- Witness for C6 at a concrete input: a single record whose version
`x1` passes neither `is_full_release` nor `is_release`, with both flags
clear, selects nothing. -/
theorem c6_gate_failure_yields_empty_result_witness :
    (∀ img ∈ [sampleImage],
      ((false : Bool) || is_full_release img.version ||
        (false : Bool) || is_release img.version) = false) ∧
    getSelected emptyOpts [sampleImage] = none :=
  ⟨by decide,
   c6_gate_failure_yields_empty_result emptyOpts [sampleImage] (by decide)⟩

/-- C9: the selection outcome is unchanged when the prerelease and
latest flag values are exchanged, and setting either flag alone makes
the release gate pass for every record. -/
theorem c9_prerelease_latest_interchangeable (o : GetOptions)
    (images : List ImageInfo) :
    getSelected (swapFlags o) images = getSelected o images ∧
    ∀ img : ImageInfo, o.prerelease = true ∨ o.latest = true →
      (o.prerelease || is_full_release img.version ||
        o.latest || is_release img.version) = true := by
  constructor
  · rw [getSelected, getSelected, selectImage, selectImage,
      filteredImages, filteredImages]
    have : ∀ img ∈ sortImages images,
        keepImage { swapFlags o with type := normalizeType (swapFlags o).type }
          img =
        keepImage { o with type := normalizeType o.type } img := by
      intro img _
      simp only [keepImage, swapFlags]
      cases o.prerelease <;> cases o.latest <;>
        cases is_full_release img.version <;> cases is_release img.version <;>
        simp
    rw [List.filter_congr this]
  · intro img h
    rcases h with h | h <;> simp [h]

/-- Witness for C9 at a concrete input: with prerelease set and latest
clear, swapping the flags leaves the selection unchanged, and the gate
passes for the sample record. -/
theorem c9_prerelease_latest_interchangeable_witness :
    getSelected (swapFlags sampleOpts) [sampleImage] =
      getSelected sampleOpts [sampleImage] ∧
    (sampleOpts.prerelease || is_full_release sampleImage.version ||
      sampleOpts.latest || is_release sampleImage.version) = true :=
  ⟨(c9_prerelease_latest_interchangeable sampleOpts [sampleImage]).1,
   (c9_prerelease_latest_interchangeable sampleOpts [sampleImage]).2
     sampleImage (Or.inl rfl)⟩

/-- C7: for every board, language, and optional search string,
listVersions yields exactly the version strings of those records of
listImages(board, language) — supplied as the `images` argument, network
being out of scope — that satisfy isRelease and (when a search string is
given) contain the search string as a substring of the version, in the
order the records appear in listImages. -/
theorem c7_list_versions_characterization (images : List ImageInfo)
    (search : Option Str) :
    list_versions images search =
      (images.filter fun i =>
        is_release i.version && searchMatches search i.version).map
        (fun i => i.version) := by
  induction images with
  | nil => rfl
  | cons img rest ih =>
    rw [list_versions]
    by_cases hs : searchMatches search img.version = true <;>
      by_cases hr : is_release img.version = true <;>
        simp [hs, hr, List.filter_cons, ih]

/-- C10: listBoards and listLanguages apply the optional substring
search to the full absolute common-prefix URL (bucket host and path
included), so every search string contained in the bucket URL — whether
or not it occurs in any board or language name — filters nothing: the
output is identical to the search-free output, for every prefix list. -/
theorem c10_search_sees_full_url (search : Str) (prefixes : List Str)
    (board : Str) (h : strContains defaultBucketUrl search = true) :
    list_boards defaultBucketUrl prefixes (some search) =
      list_boards defaultBucketUrl prefixes none ∧
    list_languages defaultBucketUrl board prefixes (some search) =
      list_languages defaultBucketUrl board prefixes none :=
  ⟨list_boards_search_in_bucket defaultBucketUrl prefixes search h,
   list_languages_search_in_bucket defaultBucketUrl board prefixes search h⟩

/-- Witness for C10 at a concrete input: the search string `amazonaws`
is a substring of the bucket URL but of neither board name, yet both
boards are yielded. -/
theorem c10_search_sees_full_url_witness :
    strContains defaultBucketUrl "amazonaws".toList = true ∧
    (list_boards defaultBucketUrl ["bin/feather/".toList, "bin/metro/".toList]
        (some "amazonaws".toList) =
      list_boards defaultBucketUrl ["bin/feather/".toList, "bin/metro/".toList]
        none ∧
     list_languages defaultBucketUrl "feather".toList
        ["bin/feather/".toList, "bin/metro/".toList]
        (some "amazonaws".toList) =
      list_languages defaultBucketUrl "feather".toList
        ["bin/feather/".toList, "bin/metro/".toList] none) :=
  ⟨by decide,
   c10_search_sees_full_url "amazonaws".toList
     ["bin/feather/".toList, "bin/metro/".toList] "feather".toList (by decide)⟩

/-- Helper for the classifier claim: past the leading digit, a
full-release tail that still contains a dot is accepted by the release
matcher. -/
theorem fullTail_relAfterDigits :
    ∀ rest : Str, fullTail rest = true → '.' ∈ rest →
      relAfterDigits rest = true
  | [] => by simp
  | [c] => by
    intro hf hd
    have hc : c = '.' := by
      rcases List.mem_cons.mp hd with h | h
      · exact h.symm
      · cases h
    subst hc
    have h1 : fullTail ['.'] = false := rfl
    rw [h1] at hf
    cases hf
  | c :: d :: r2 => by
    intro hf hd
    by_cases hc : c = '.'
    · subst hc
      have h1 : fullTail ('.' :: d :: r2) = (d.isDigit && fullTail r2) := rfl
      rw [h1, Bool.and_eq_true] at hf
      have h2 : relAfterDigits ('.' :: d :: r2) = d.isDigit := rfl
      rw [h2, hf.1]
    · have h1 : fullTail (c :: d :: r2) =
          if c = '.' then (d.isDigit && fullTail r2)
          else (c.isDigit && fullTail (d :: r2)) := rfl
      rw [h1, if_neg hc, Bool.and_eq_true] at hf
      have hd2 : '.' ∈ d :: r2 := by
        rcases List.mem_cons.mp hd with h | h
        · exact absurd h.symm hc
        · exact h
      have h2 : relAfterDigits (c :: d :: r2) =
          if c.isDigit then relAfterDigits (d :: r2)
          else (decide (c = '.') && d.isDigit) := rfl
      rw [h2, if_pos hf.1]
      exact fullTail_relAfterDigits (d :: r2) hf.2 hd2

/-- Counterexample to C3 as stated: the version string `7` satisfies
isFullRelease (the full-release pattern allows zero dot groups) but not
isRelease (the release pattern demands at least one dot group). -/
theorem c3_counterexample_dotless_full_release :
    is_full_release ['7'] = true ∧ is_release ['7'] = false := by decide

/-- C3 amended: for every version string that contains at least one dot,
isFullRelease implies isRelease.  (As stated the claim fails exactly on
the dotless full releases, such as `7`.) -/
theorem c3_full_release_with_dot_is_release (v : Str)
    (hfull : is_full_release v = true) (hdot : '.' ∈ v) :
    is_release v = true := by
  cases v with
  | nil => cases hdot
  | cons c rest =>
    simp only [is_full_release, Bool.and_eq_true] at hfull
    have hc : c ≠ '.' := by
      intro h
      rw [h] at hfull
      exact absurd hfull.1 (by decide)
    have hd : '.' ∈ rest := by
      rcases List.mem_cons.mp hdot with h | h
      · exact absurd h.symm hc
      · exact h
    simp [is_release, hfull.1, fullTail_relAfterDigits rest hfull.2 hd]

/-- Witness for the amended C3 at a concrete input: `7.3` is a full
release containing a dot, and is a release. -/
theorem c3_full_release_with_dot_is_release_witness :
    is_full_release "7.3".toList = true ∧ '.' ∈ "7.3".toList ∧
      is_release "7.3".toList = true :=
  ⟨by decide, by decide,
   c3_full_release_with_dot_is_release "7.3".toList (by decide) (by decide)⟩

/-- Helper: once the filetype suffix is split off, parsing fails exactly
when the stem holds fewer than four dashes (so fewer than five fields). -/
theorem from_url_none_iff_count (url : Str) (size : Nat) (mdate : Timestamp)
    (stem ty : Str)
    (hsplit : filetypeSplit (basename url) = some (stem, ty)) :
    (from_url url size mdate = none ↔ stem.count '-' < 4) := by
  simp only [from_url, hsplit]
  cases h1 : splitFirst '-' stem with
  | none =>
    have hc1 : stem.count '-' = 0 := (splitFirst_eq_none_iff '-' stem).mp h1
    simp only [hc1]
    simp
  | some pr1 =>
    obtain ⟨p1, r1⟩ := pr1
    have hc1 := splitFirst_count '-' stem p1 r1 h1
    cases h2 : splitFirst '-' r1 with
    | none =>
      have hc2 : r1.count '-' = 0 := (splitFirst_eq_none_iff '-' r1).mp h2
      simp only [h2]
      simp [hc1, hc2]
    | some pr2 =>
      obtain ⟨p2, r2⟩ := pr2
      have hc2 := splitFirst_count '-' r1 p2 r2 h2
      cases h3 : splitFirst '-' r2 with
      | none =>
        have hc3 : r2.count '-' = 0 := (splitFirst_eq_none_iff '-' r2).mp h3
        simp only [h2, h3]
        simp [hc1, hc2, hc3]
      | some pr3 =>
        obtain ⟨p3, r3⟩ := pr3
        have hc3 := splitFirst_count '-' r2 p3 r3 h3
        cases h4 : splitFirst '-' r3 with
        | none =>
          have hc4 : r3.count '-' = 0 := (splitFirst_eq_none_iff '-' r3).mp h4
          simp only [h2, h3, h4]
          simp [hc1, hc2, hc3, hc4]
        | some pr4 =>
          obtain ⟨p4, r4⟩ := pr4
          have hc4 := splitFirst_count '-' r3 p4 r4 h4
          simp only [h2, h3, h4]
          constructor
          · intro h
            cases h
          · intro h
            omega

/-- Counterexample to C4 as stated: the basename `a-b-c-d-e-f.uf2` does
not match the claimed shape — its stem has six dash-separated fields,
not exactly five — yet parse succeeds rather than raising
MalformedNameError. -/
theorem c4_counterexample_six_fields_still_parse :
    (splitAll '-' "a-b-c-d-e-f".toList).length = 6 ∧
    filetypeSplit (basename "bin/x/y/a-b-c-d-e-f.uf2".toList) =
      some ("a-b-c-d-e-f".toList, ".uf2".toList) ∧
    from_url "bin/x/y/a-b-c-d-e-f.uf2".toList 0 sampleTs ≠ none := by
  refine ⟨by decide, by decide, ?_⟩
  intro h
  exact absurd h (by decide)

/-- C4 amended: parse fails with a MalformedNameError (modelled as
`none`, with no partial record) exactly when the basename has no valid
type suffix or its stem splits into fewer than five dash-separated
fields; in particular parsing the key `bin/x/y/not-a-valid-name` raises
MalformedNameError. -/
theorem c4_parse_error_characterization (url : Str) (size : Nat)
    (mdate : Timestamp) :
    (from_url url size mdate = none ↔ malformedName (basename url) = true) ∧
    from_url "bin/x/y/not-a-valid-name".toList 0 sampleTs = none := by
  refine ⟨?_, by decide⟩
  cases hsplit : filetypeSplit (basename url) with
  | none =>
    constructor
    · intro _
      simp [malformedName, hsplit]
    · intro _
      simp [from_url, hsplit]
  | some st =>
    obtain ⟨stem, ty⟩ := st
    rw [from_url_none_iff_count url size mdate stem ty hsplit]
    simp only [malformedName, hsplit, decide_eq_true_eq, splitAll_length]
    omega

/-- C8: for every URL whose basename has a valid type suffix and whose
stem decomposes as four dash-free fields followed by a dash and an
arbitrary remainder, parse succeeds: the version field receives
everything after the fourth dash (and so may itself contain dashes), the
board and language fields are the third and fourth fields, and the
exactly-five-fields shape is not enforced as a parse failure. -/
theorem c8_parse_tolerates_extra_fields (url : Str) (size : Nat)
    (mdate : Timestamp) (f1 f2 f3 f4 v ty : Str)
    (hsplit : filetypeSplit (basename url) =
      some (f1 ++ '-' :: (f2 ++ '-' :: (f3 ++ '-' :: (f4 ++ '-' :: v))), ty))
    (h1 : '-' ∉ f1) (h2 : '-' ∉ f2) (h3 : '-' ∉ f3) (h4 : '-' ∉ f4) :
    from_url url size mdate =
      some { name := basename url, url := url, size := size, mdate := mdate,
             board := f3, language := f4, version := v, type := ty } := by
  simp only [from_url, hsplit,
    splitFirst_append '-' f1 (f2 ++ '-' :: (f3 ++ '-' :: (f4 ++ '-' :: v))) h1,
    splitFirst_append '-' f2 (f3 ++ '-' :: (f4 ++ '-' :: v)) h2,
    splitFirst_append '-' f3 (f4 ++ '-' :: v) h3,
    splitFirst_append '-' f4 v h4]

/-- Witness for C8 at a concrete input: the key
`bin/x/y/a-b-c-d-8.0.0-beta.1.uf2` (six stem fields) parses, with the
dash-containing version `8.0.0-beta.1`. -/
theorem c8_parse_tolerates_extra_fields_witness :
    from_url "bin/x/y/a-b-c-d-8.0.0-beta.1.uf2".toList 0 sampleTs =
      some { name := "a-b-c-d-8.0.0-beta.1.uf2".toList,
             url := "bin/x/y/a-b-c-d-8.0.0-beta.1.uf2".toList,
             size := 0, mdate := sampleTs,
             board := "c".toList, language := "d".toList,
             version := "8.0.0-beta.1".toList, type := ".uf2".toList } ∧
    "8.0.0-beta.1".toList.count '-' = 1 :=
  ⟨c8_parse_tolerates_extra_fields "bin/x/y/a-b-c-d-8.0.0-beta.1.uf2".toList
     0 sampleTs "a".toList "b".toList "c".toList "d".toList
     "8.0.0-beta.1".toList ".uf2".toList
     (by decide) (by decide) (by decide) (by decide) (by decide),
   by decide⟩

/-! ## Extension-run lemmas for the round-trip claim -/

/-- Unfolding equation: a one-character continuation. -/
theorem afterSeg_one (c : Char) :
    afterSeg [c] = if c = '.' then false else c.isAlphanum := by
  by_cases hc : c = '.'
  · subst hc
    rfl
  · rw [if_neg hc]
    show (if c = '.' then false else (c.isAlphanum && true)) = c.isAlphanum
    rw [if_neg hc, Bool.and_true]

/-- Unfolding equation: a two-or-more-character continuation. -/
theorem afterSeg_cons2 (c d : Char) (r : Str) :
    afterSeg (c :: d :: r) =
      if c = '.' then (d.isAlpha && afterSeg r)
      else (c.isAlphanum && afterSeg (d :: r)) := rfl

/-- Every character of an extension-run continuation is a dot or an
alphanumeric. -/
theorem afterSeg_chars :
    ∀ s : Str, afterSeg s = true → ∀ x ∈ s, x = '.' ∨ x.isAlphanum = true
  | [] => by simp
  | [c] => by
    intro hs x hx
    rcases List.mem_cons.mp hx with rfl | hx2
    · by_cases hc : x = '.'
      · exact Or.inl hc
      · rw [afterSeg_one, if_neg hc] at hs
        exact Or.inr hs
    · cases hx2
  | c :: d :: r => by
    intro hs x hx
    by_cases hc : c = '.'
    · subst hc
      have h1 : afterSeg ('.' :: d :: r) = (d.isAlpha && afterSeg r) := rfl
      rw [h1, Bool.and_eq_true] at hs
      rcases List.mem_cons.mp hx with rfl | hx2
      · exact Or.inl rfl
      · rcases List.mem_cons.mp hx2 with rfl | hx3
        · exact Or.inr (by simp [Char.isAlphanum, hs.1])
        · exact afterSeg_chars r hs.2 x hx3
    · rw [afterSeg_cons2, if_neg hc, Bool.and_eq_true] at hs
      rcases List.mem_cons.mp hx with rfl | hx2
      · exact Or.inr hs.1
      · exact afterSeg_chars (d :: r) hs.2 x hx2

/-- An extension run never contains a dash. -/
theorem isExtRun_no_dash {s : Str} (h : isExtRun s = true) : '-' ∉ s := by
  intro hm
  cases s with
  | nil => cases hm
  | cons c r =>
    have h1 : isExtRun (c :: r) = (decide (c = '.') && afterSeg (c :: r)) := rfl
    rw [h1, Bool.and_eq_true] at h
    rcases afterSeg_chars (c :: r) h.2 '-' hm with h2 | h2
    · cases h2
    · exact absurd h2 (by decide)

/-- Dropping a whole extension run from the end of a continuation leaves
a continuation. -/
theorem afterSeg_append_run {ty : Str} (hty : isExtRun ty = true) :
    ∀ x : Str, afterSeg (x ++ ty) = true → afterSeg x = true
  | [] => fun _ => rfl
  | [c] => by
    intro hx
    obtain ⟨t0, ty2, rfl⟩ : ∃ t0 ty2, ty = t0 :: ty2 := by
      cases ty with
      | nil => cases hty
      | cons t0 ty2 => exact ⟨t0, ty2, rfl⟩
    have ht0 : t0 = '.' := by
      have h1 : isExtRun (t0 :: ty2) = (decide (t0 = '.') && afterSeg (t0 :: ty2)) :=
        rfl
      rw [h1, Bool.and_eq_true, decide_eq_true_eq] at hty
      exact hty.1
    subst ht0
    by_cases hc : c = '.'
    · subst hc
      have h1 : afterSeg ('.' :: '.' :: ty2) = (('.').isAlpha && afterSeg ty2) :=
        rfl
      rw [List.cons_append, List.nil_append, h1, Bool.and_eq_true] at hx
      exact absurd hx.1 (by decide)
    · rw [List.cons_append, List.nil_append, afterSeg_cons2, if_neg hc,
        Bool.and_eq_true] at hx
      rw [afterSeg_one, if_neg hc]
      exact hx.1
  | c :: d :: r => by
    intro hx
    by_cases hc : c = '.'
    · subst hc
      have h1 : afterSeg ('.' :: d :: (r ++ ty)) = (d.isAlpha && afterSeg (r ++ ty)) :=
        rfl
      rw [List.cons_append, List.cons_append, h1, Bool.and_eq_true] at hx
      have h2 : afterSeg ('.' :: d :: r) = (d.isAlpha && afterSeg r) := rfl
      rw [h2, hx.1, afterSeg_append_run hty r hx.2]
      rfl
    · rw [List.cons_append, List.cons_append, afterSeg_cons2, if_neg hc,
        Bool.and_eq_true] at hx
      rw [afterSeg_cons2, if_neg hc, hx.1,
        afterSeg_append_run hty (d :: r) hx.2]
      rfl

/-- Dropping a whole extension run from the end of an extension run
leaves an extension run (or nothing). -/
theorem isExtRun_append {T ty : Str} (hne : T ≠ [])
    (h : isExtRun (T ++ ty) = true) (hty : isExtRun ty = true) :
    isExtRun T = true := by
  cases T with
  | nil => exact absurd rfl hne
  | cons c T2 =>
    have h1 : isExtRun ((c :: T2) ++ ty) =
        (decide (c = '.') && afterSeg ((c :: T2) ++ ty)) := rfl
    rw [h1, Bool.and_eq_true] at h
    have h2 : isExtRun (c :: T2) = (decide (c = '.') && afterSeg (c :: T2)) := rfl
    rw [h2, h.1, afterSeg_append_run hty (c :: T2) h.2]
    rfl

/-- If some non-empty suffix of `v` is an extension run, splitting off a
filetype from `v` succeeds. -/
theorem filetypeSplit_isSome_of_run_suffix :
    ∀ v T : Str, T ≠ [] → T <:+ v → isExtRun T = true →
      (filetypeSplit v).isSome = true
  | [], T => by
    intro hne hsuf _
    exact absurd (List.suffix_nil.mp hsuf) hne
  | c :: v2, T => by
    intro hne hsuf hrun
    rcases List.suffix_cons_iff.mp hsuf with h | h
    · subst h
      rw [filetypeSplit, if_pos hrun]
      rfl
    · have hrec := filetypeSplit_isSome_of_run_suffix v2 T hne h hrun
      rw [filetypeSplit]
      by_cases hr : isExtRun (c :: v2) = true
      · rw [if_pos hr]
        rfl
      · rw [if_neg hr]
        cases h2 : filetypeSplit v2 with
        | none =>
          rw [h2] at hrec
          cases hrec
        | some st =>
          obtain ⟨stem, ty⟩ := st
          rfl

/-- The regex assigns exactly the split `(stem, ty)` when `ty` is an
extension run and no longer suffix is one. -/
theorem filetypeSplit_append :
    ∀ stem ty : Str, isExtRun ty = true →
      (∀ T : Str, T ≠ [] → T <:+ stem → isExtRun (T ++ ty) = false) →
      filetypeSplit (stem ++ ty) = some (stem, ty)
  | [], ty => by
    intro hty _
    cases ty with
    | nil => cases hty
    | cons t0 ty2 =>
      rw [List.nil_append, filetypeSplit, if_pos hty]
  | c :: stem2, ty => by
    intro hty hno
    have hfalse : isExtRun ((c :: stem2) ++ ty) = false :=
      hno (c :: stem2) (by simp) (List.suffix_refl (c :: stem2))
    have hrec : filetypeSplit (stem2 ++ ty) = some (stem2, ty) :=
      filetypeSplit_append stem2 ty hty
        (fun T h1 h2 => hno T h1 (h2.trans (List.suffix_cons c stem2)))
    rw [List.cons_append, filetypeSplit, if_neg (by rw [← List.cons_append, hfalse]; simp), hrec]

/-- For a stem of the form `w-v` where the version part `v` has no
extension-run suffix, no non-empty suffix of the stem extends the
filetype run: longer suffixes contain the dash, shorter ones would be
runs inside `v`. -/
theorem no_run_suffix_of_stem (w v ty : Str) (hty : isExtRun ty = true)
    (hv : filetypeSplit v = none) :
    ∀ T : Str, T ≠ [] → T <:+ (w ++ '-' :: v) → isExtRun (T ++ ty) = false := by
  intro T hne hsuf
  by_contra hcon
  rw [Bool.not_eq_false] at hcon
  by_cases hlen : T.length ≤ v.length
  · have hvs : v <:+ w ++ '-' :: v := ⟨w ++ ['-'], by simp⟩
    have hTv : T <:+ v := List.suffix_of_suffix_length_le hsuf hvs hlen
    have hrunT : isExtRun T = true := isExtRun_append hne hcon hty
    have h2 := filetypeSplit_isSome_of_run_suffix v T hne hTv hrunT
    rw [hv] at h2
    cases h2
  · have hdv : ('-' :: v) <:+ w ++ '-' :: v := ⟨w, rfl⟩
    have hdT : ('-' :: v) <:+ T :=
      List.suffix_of_suffix_length_le hdv hsuf (by simp; omega)
    have hmem : '-' ∈ T := List.IsSuffix.mem (List.mem_cons_self '-' v) hdT
    exact absurd (List.mem_append_left ty hmem) (isExtRun_no_dash hcon)

/-- Splitting a string without the separator yields one field. -/
theorem splitAll_no_char (c : Char) :
    ∀ y : Str, c ∉ y → splitAll c y = [y]
  | [] => fun _ => rfl
  | a :: y2 => by
    intro h
    have ha : ¬ a = c := fun he => h (he ▸ List.mem_cons_self a y2)
    have hrec := splitAll_no_char c y2 (fun hm => h (List.mem_cons_of_mem a hm))
    rw [splitAll, hrec]
    show (if a = c then [[], y2] else [a :: y2]) = [a :: y2]
    rw [if_neg ha]

/-- The basename of a path skips everything before the final slash. -/
theorem basename_append : ∀ x y : Str, '/' ∉ y → basename (x ++ '/' :: y) = y
  | [], y => by
    intro h
    rw [List.nil_append, basename, splitAll, splitAll_no_char '/' y h]
    rfl
  | a :: x2, y => by
    intro h
    have hrec := basename_append x2 y h
    rw [List.cons_append, basename]
    rw [basename] at hrec
    have hslash : ('/' : Char) ∈ x2 ++ '/' :: y :=
      List.mem_append_right x2 (List.mem_cons_self '/' y)
    cases hsp : splitAll '/' (x2 ++ '/' :: y) with
    | nil => exact absurd hsp (splitAll_ne_nil '/' (x2 ++ '/' :: y))
    | cons p ps =>
      have hps : ps ≠ [] := by
        intro h0
        have hlen := splitAll_length '/' (x2 ++ '/' :: y)
        have hcount : 0 < (x2 ++ '/' :: y).count '/' :=
          List.count_pos_iff.mpr hslash
        rw [hsp, h0] at hlen
        simp only [List.length_cons, List.length_nil] at hlen
        omega
      obtain ⟨q, ps2, rfl⟩ : ∃ q ps2, ps = q :: ps2 := by
        cases ps with
        | nil => exact absurd rfl hps
        | cons q ps2 => exact ⟨q, ps2, rfl⟩
      rw [hsp] at hrec
      rw [List.getLastD_cons, List.getLastD_cons] at hrec
      have hgoal : splitAll '/' (a :: (x2 ++ '/' :: y)) =
          if a = '/' then [] :: p :: q :: ps2 else (a :: p) :: q :: ps2 := by
        rw [splitAll, hsp]
      rw [hgoal]
      by_cases ha : a = '/'
      · rw [if_pos ha, List.getLastD_cons, List.getLastD_cons,
          List.getLastD_cons]
        exact hrec
      · rw [if_neg ha, List.getLastD_cons, List.getLastD_cons]
        exact hrec

/-- Counterexample to C5 as stated: the key `bin/b/l/p-d-b-l-1.rc2.uf2`
is of the claimed shape with version `1.rc2` and type `.uf2` — the four
leading stem fields are dash-free, the stem has exactly five fields, and
`.uf2` is a valid type suffix — yet parsing reads back version `1` and
type `.rc2.uf2` (the regex takes the longest extension run), so the
original substrings are not reproduced. -/
theorem c5_counterexample_ambiguous_type_suffix :
    isExtRun ".uf2".toList = true ∧
    (splitAll '-' "p-d-b-l-1.rc2".toList).length = 5 ∧
    (from_url "bin/b/l/p-d-b-l-1.rc2.uf2".toList 0 sampleTs).map
        (fun r => (r.version, r.type)) =
      some ("1".toList, ".rc2.uf2".toList) ∧
    ("1".toList : Str) ≠ "1.rc2".toList := by decide

/-- C5 amended: for every well-formed key
`bin/<board>/<language>/<p>-<d>-<board>-<language>-<version><type>`
whose first four stem fields contain no dash, whose basename contains no
slash, whose type is a valid extension-suffix run, and whose version
does not itself end in an extension run (no suffix of the version
matches the filetype pattern — without this condition the parser reads
back a longer type, as the counterexample shows), parsing the key
reproduces the board, language, version, and type substrings exactly. -/
theorem c5_roundtrip_parse (p d b l v ty : Str) (size : Nat)
    (mdate : Timestamp)
    (hp : '-' ∉ p) (hd : '-' ∉ d) (hb : '-' ∉ b) (hl : '-' ∉ l)
    (hty : isExtRun ty = true) (hv : filetypeSplit v = none)
    (hslash :
      '/' ∉ (p ++ '-' :: (d ++ '-' :: (b ++ '-' :: (l ++ '-' :: v)))) ++ ty) :
    from_url ("bin/".toList ++ (b ++ '/' :: (l ++ '/' ::
        ((p ++ '-' :: (d ++ '-' :: (b ++ '-' :: (l ++ '-' :: v)))) ++ ty))))
        size mdate =
      some { name := (p ++ '-' :: (d ++ '-' :: (b ++ '-' :: (l ++ '-' :: v))))
               ++ ty,
             url := "bin/".toList ++ (b ++ '/' :: (l ++ '/' ::
               ((p ++ '-' :: (d ++ '-' :: (b ++ '-' :: (l ++ '-' :: v))))
                 ++ ty))),
             size := size, mdate := mdate,
             board := b, language := l, version := v, type := ty } := by
  have hname : basename ("bin/".toList ++ (b ++ '/' :: (l ++ '/' ::
      ((p ++ '-' :: (d ++ '-' :: (b ++ '-' :: (l ++ '-' :: v)))) ++ ty)))) =
      (p ++ '-' :: (d ++ '-' :: (b ++ '-' :: (l ++ '-' :: v)))) ++ ty := by
    have hkey : "bin/".toList ++ (b ++ '/' :: (l ++ '/' ::
        ((p ++ '-' :: (d ++ '-' :: (b ++ '-' :: (l ++ '-' :: v)))) ++ ty))) =
        ("bin/".toList ++ b ++ '/' :: l) ++ '/' ::
          ((p ++ '-' :: (d ++ '-' :: (b ++ '-' :: (l ++ '-' :: v)))) ++ ty) := by
      simp
    rw [hkey]
    exact basename_append ("bin/".toList ++ b ++ '/' :: l) _ hslash
  have hsplit : filetypeSplit
      ((p ++ '-' :: (d ++ '-' :: (b ++ '-' :: (l ++ '-' :: v)))) ++ ty) =
      some (p ++ '-' :: (d ++ '-' :: (b ++ '-' :: (l ++ '-' :: v))), ty) := by
    have h2 := filetypeSplit_append
      ((p ++ '-' :: (d ++ '-' :: (b ++ '-' :: l))) ++ '-' :: v) ty hty
      (no_run_suffix_of_stem (p ++ '-' :: (d ++ '-' :: (b ++ '-' :: l)))
        v ty hty hv)
    have hw : (p ++ '-' :: (d ++ '-' :: (b ++ '-' :: l))) ++ '-' :: v =
        p ++ '-' :: (d ++ '-' :: (b ++ '-' :: (l ++ '-' :: v))) := by
      simp
    rw [hw] at h2
    exact h2
  simp only [from_url, hname, hsplit,
    splitFirst_append '-' p (d ++ '-' :: (b ++ '-' :: (l ++ '-' :: v))) hp,
    splitFirst_append '-' d (b ++ '-' :: (l ++ '-' :: v)) hd,
    splitFirst_append '-' b (l ++ '-' :: v) hb,
    splitFirst_append '-' l v hl]

/-- Witness for the amended C5 at a concrete input: the canonical key
`bin/feather/en_US/adafruit-circuitpython-feather-en_US-7.3.1.uf2`
round-trips all four fields. -/
theorem c5_roundtrip_parse_witness :
    from_url
      "bin/feather/en_US/adafruit-circuitpython-feather-en_US-7.3.1.uf2".toList
      0 sampleTs =
      some { name :=
               "adafruit-circuitpython-feather-en_US-7.3.1.uf2".toList,
             url :=
               "bin/feather/en_US/adafruit-circuitpython-feather-en_US-7.3.1.uf2".toList,
             size := 0, mdate := sampleTs, board := "feather".toList,
             language := "en_US".toList, version := "7.3.1".toList,
             type := ".uf2".toList } := by
  have h := c5_roundtrip_parse "adafruit".toList "circuitpython".toList
    "feather".toList "en_US".toList "7.3.1".toList ".uf2".toList 0 sampleTs
    (by decide) (by decide) (by decide) (by decide) (by decide) (by decide)
    (by decide)
  exact h

end Circdown
